import Mathlib

/-!
Shallow embedding of `src/solution.js` (a brute-force knapsack solver) and
verification of its specification.

Numbers are modelled by `ℚ`.  JavaScript arrays holding the positional
records of the source are modelled as follows:

* an input item `[weight, benefit]` is a pair `ℚ × ℚ`;
* an annotated item `[ratio, weight, benefit]` (built by `calculateBenefit`)
  is a triple `ℚ × ℚ × ℚ`;
* a scored combination `[totalRatio, totalWeight, ...members]` (built by
  `calculateTotalBenefit`) is `ℚ × ℚ × List Ann`.

`Array.prototype.sort` with a comparator `cmp` is, by the ECMAScript
specification, a stable sort; its result is the unique stable sort of the
array, which we obtain with `List.insertionSort r` where `r a b` holds iff
`cmp a b ≤ 0`.  The optional `maximumWeight` parameter (default `Infinity`)
is modelled by `Option ℚ`, `none` standing for the absent / infinite bound.
`knapsack` returns `Option _`: `none` models the run that reaches
`results[0].slice(2)` with `results` empty and throws a `TypeError`.

The arithmetic of `Rat` in Batteries is marked irreducible, which blocks
evaluation of concrete instances inside `decide`; we restore the default
transparency (this changes nothing about the definitions themselves).
-/

set_option allowUnsafeReducibility true in
attribute [semireducible] Rat.mul Rat.inv Rat.add Rat.sub

namespace KnapsackJS

/-- An input item `[weight, benefit]`. -/
abbrev Item : Type := ℚ × ℚ

/-- An annotated item `[ratio, weight, benefit]`. -/
abbrev Ann : Type := ℚ × ℚ × ℚ

/-- A scored combination `[totalRatio, totalWeight, ...members]`. -/
abbrev Scored : Type := ℚ × ℚ × List Ann

/-- JS source: `function calculateBenefit(item) { return [item[1] / item[0], ...item]; }` -/
def calculateBenefit (item : Item) : Ann :=
  (item.2 / item.1, item.1, item.2)

/-- The order into which `sort(sortByBenefit)` rearranges, where
`sortByBenefit(left, right) = right[0] - left[0] || right[1] - left[1]`:
`left` may stay before `right` iff the comparator value is `≤ 0`, i.e. iff
`right`'s ratio is smaller, or the ratios agree and `right`'s weight is `≤`
`left`'s. -/
def sortByBenefit (left right : Ann) : Prop :=
  right.1 < left.1 ∨ (right.1 = left.1 ∧ right.2.1 ≤ left.2.1)

instance : DecidableRel sortByBenefit := fun _ _ => by
  unfold sortByBenefit; infer_instance

/-- The recursion inside `sortedCombinations`: `permute(left, right)` pushes,
in order, every `left ++ c` for `c` a combination of `right`, the include
branch first. -/
def permuteAux {α : Type*} (left : List α) : List α → List (List α)
  | [] => [left]
  | x :: rest => permuteAux (left ++ [x]) rest ++ permuteAux left rest

/-- JS source: `function sortedCombinations(items)` — all `2^N` combinations
of `items`, in the order the recursive include/exclude traversal pushes
them. -/
def sortedCombinations {α : Type*} (items : List α) : List (List α) :=
  permuteAux [] items

/-- JS source: `function calculateTotalBenefit(item)` — prepend the sum of
the member ratios and the sum of the member weights to the members. -/
def calculateTotalBenefit (item : List Ann) : Scored :=
  (item.foldl (fun total current => total + current.1) 0,
   item.foldl (fun total current => total + current.2.1) 0,
   item)

/-- JS source: `function filterByWeight(threshold = Infinity) { return item => item[1] <= threshold; }` —
`none` models the defaulted `Infinity` bound, which every total weight
passes. -/
def filterByWeight (threshold : Option ℚ) : Scored → Bool :=
  fun item =>
    match threshold with
    | none => true
    | some t => decide (item.2.1 ≤ t)

/-- The order into which `sort(sortByTotalBenefit)` rearranges, where
`sortByTotalBenefit(left, right) = right[0] - left[0]`: `left` may stay
before `right` iff `right`'s total ratio is `≤ left`'s. -/
def sortByTotalBenefit (left right : Scored) : Prop :=
  right.1 ≤ left.1

instance : DecidableRel sortByTotalBenefit := fun _ _ => by
  unfold sortByTotalBenefit; infer_instance

/-- The expression `items.map(calculateBenefit).sort(sortByBenefit)` of
`knapsack` — the ranked sequence. -/
def rankedItems (items : List Item) : List Ann :=
  List.insertionSort sortByBenefit (items.map calculateBenefit)

/-- The expression
`combinations.map(calculateTotalBenefit).filter(filterByWeight(maximumWeight))`
of `knapsack` — the scored combinations surviving the capacity filter, still
in enumeration order. -/
def feasibleResults (items : List Item) (maximumWeight : Option ℚ) : List Scored :=
  ((sortedCombinations (rankedItems items)).map calculateTotalBenefit).filter
    (filterByWeight maximumWeight)

/-- The full `results` value of `knapsack`: the feasible scored combinations
sorted by `sortByTotalBenefit`. -/
def knapsackResults (items : List Item) (maximumWeight : Option ℚ) : List Scored :=
  List.insertionSort sortByTotalBenefit (feasibleResults items maximumWeight)

/-- The expression `results[0].slice(2).map(item => item.slice(1))` — drop
the two totals, then drop each member's ratio. -/
def unwrapWinner (winner : Scored) : List Item :=
  winner.2.2.map (fun item => (item.2.1, item.2.2))

/-- JS source: `function knapsack(items, maximumWeight)`.  When `results` is
empty the source evaluates `undefined.slice(2)` and throws a `TypeError`;
that run is modelled by `none`. -/
def knapsack (items : List Item) (maximumWeight : Option ℚ) : Option (List Item) :=
  match knapsackResults items maximumWeight with
  | [] => none
  | winner :: _ => some (unwrapWinner winner)

/-- Sum of the weights of a list of plain `(weight, benefit)` pairs. -/
def totalWeightOf (l : List Item) : ℚ :=
  (l.map (fun p => p.1)).sum

/-- Sum of the benefit/weight ratios of a list of plain `(weight, benefit)`
pairs. -/
def totalRatioOf (l : List Item) : ℚ :=
  (l.map (fun p => p.2 / p.1)).sum

/-- Modelled from the spec, §4.3: the subset of a ranked sequence described
by a bitmask `m`, "the subset corresponding to bitmask `m` (0 ≤ m < 2^N)
includes ranked element `i` iff bit `i` of `m` is set".  Bit `0` governs the
first element. -/
def specMaskSubset {α : Type*} : List α → Nat → List α
  | [], _ => []
  | x :: rest, m =>
    if m % 2 = 1 then x :: specMaskSubset rest (m / 2) else specMaskSubset rest (m / 2)

/-- The bitmasks of the code's enumeration order, under the spec's §4.3
convention (bit `i` of the mask governs ranked element `i`): the include
branch first means the odd masks (head included) precede the even ones at
every level. -/
def enumMasks : Nat → List Nat
  | 0 => [0]
  | n + 1 => (enumMasks n).map (fun m => 2 * m + 1) ++ (enumMasks n).map (fun m => 2 * m)

/-- Modelled from the spec, §4.3 and §4.6: enumerate the subsets of the
ranked sequence by ascending bitmask, score and filter them as the code
does, and pick the first feasible subset attaining the maximal `totalRatio`
(the spec's tie-break: "among ties, prefer the subset that appears earliest
in enumeration order (i.e., smallest bitmask `m`)"). -/
def specSmallestMaskWinner (items : List Item) (maximumWeight : Option ℚ) :
    Option (List Item) :=
  let ranked := rankedItems items
  let cands := (((List.range (2 ^ ranked.length)).map (specMaskSubset ranked)).map
    calculateTotalBenefit).filter (filterByWeight maximumWeight)
  match cands.find? (fun m => cands.all (fun x => decide (x.1 ≤ m.1))) with
  | none => none
  | some w => some (unwrapWinner w)

/-! ### Structure of the subset enumerator -/

open List

variable {α : Type*}

theorem permuteAux_eq_map (left : List α) (r : List α) :
    permuteAux left r = (permuteAux [] r).map (fun c => left ++ c) := by
  induction r generalizing left with
  | nil => simp [permuteAux]
  | cons x rest ih =>
    simp only [permuteAux, List.nil_append]
    rw [ih (left ++ [x]), ih left, ih [x]]
    simp [List.map_map, Function.comp_def, List.append_assoc]

@[simp]
theorem sortedCombinations_nil : sortedCombinations ([] : List α) = [[]] := rfl

theorem sortedCombinations_cons (x : α) (rest : List α) :
    sortedCombinations (x :: rest) =
      (sortedCombinations rest).map (fun c => x :: c) ++ sortedCombinations rest := by
  unfold sortedCombinations
  simp only [permuteAux, List.nil_append]
  rw [permuteAux_eq_map [x] rest]
  simp

theorem length_sortedCombinations (l : List α) :
    (sortedCombinations l).length = 2 ^ l.length := by
  induction l with
  | nil => rfl
  | cons x rest ih =>
    rw [sortedCombinations_cons]
    simp [ih, List.length_cons, pow_succ]
    ring

theorem mem_sortedCombinations {l t : List α} :
    t ∈ sortedCombinations l ↔ t <+ l := by
  induction l generalizing t with
  | nil => simp [List.sublist_nil]
  | cons x rest ih =>
    rw [sortedCombinations_cons]
    constructor
    · intro h
      rcases List.mem_append.1 h with h | h
      · rcases List.mem_map.1 h with ⟨c, hc, rfl⟩
        exact (ih.1 hc).cons₂ x
      · exact (ih.1 h).cons x
    · intro h
      cases h with
      | cons _ h => exact List.mem_append.2 (Or.inr (ih.2 h))
      | cons₂ _ h =>
        exact List.mem_append.2 (Or.inl (List.mem_map.2 ⟨_, ih.2 h, rfl⟩))

theorem specMaskSubset_two_mul_add_one (x : α) (rest : List α) (m : Nat) :
    specMaskSubset (x :: rest) (2 * m + 1) = x :: specMaskSubset rest m := by
  simp [specMaskSubset, Nat.mul_add_mod, Nat.mul_add_div]

theorem specMaskSubset_two_mul (x : α) (rest : List α) (m : Nat) :
    specMaskSubset (x :: rest) (2 * m) = specMaskSubset rest m := by
  simp [specMaskSubset, Nat.mul_mod_right, Nat.mul_div_cancel_left]

theorem sortedCombinations_eq_enumMasks (l : List α) :
    sortedCombinations l = (enumMasks l.length).map (specMaskSubset l) := by
  induction l with
  | nil => rfl
  | cons x rest ih =>
    rw [sortedCombinations_cons, ih, List.length_cons, enumMasks]
    simp only [List.map_append, List.map_map, Function.comp_def,
      specMaskSubset_two_mul_add_one, specMaskSubset_two_mul]

theorem mem_enumMasks {n m : Nat} : m ∈ enumMasks n ↔ m < 2 ^ n := by
  induction n generalizing m with
  | zero => simp [enumMasks, Nat.lt_one_iff]
  | succ n ih =>
    rw [enumMasks]
    constructor
    · intro h
      rcases List.mem_append.1 h with h | h <;>
        rcases List.mem_map.1 h with ⟨k, hk, rfl⟩ <;>
          have := ih.1 hk <;> omega
    · intro h
      rcases Nat.even_or_odd m with ⟨k, hk⟩ | ⟨k, hk⟩
      · refine List.mem_append.2 (Or.inr (List.mem_map.2 ⟨k, ih.2 ?_, ?_⟩)) <;> omega
      · refine List.mem_append.2 (Or.inl (List.mem_map.2 ⟨k, ih.2 ?_, ?_⟩)) <;> omega

theorem enumMasks_nodup (n : Nat) : (enumMasks n).Nodup := by
  induction n with
  | zero => simp [enumMasks]
  | succ n ih =>
    rw [enumMasks]
    refine List.Nodup.append ?_ ?_ ?_
    · exact ih.map (fun a b h => by omega)
    · exact ih.map (fun a b h => by omega)
    · intro m hm hm'
      rcases List.mem_map.1 hm with ⟨k, _, rfl⟩
      rcases List.mem_map.1 hm' with ⟨k', _, h⟩
      omega

/-! ### The two comparator orders are total preorders -/

instance : IsRefl Ann sortByBenefit :=
  ⟨fun _ => Or.inr ⟨rfl, le_refl _⟩⟩

instance : IsTotal Ann sortByBenefit := by
  constructor
  intro a b
  rcases lt_trichotomy a.1 b.1 with h | h | h
  · exact Or.inr (Or.inl h)
  · rcases le_total b.2.1 a.2.1 with hw | hw
    · exact Or.inl (Or.inr ⟨h.symm, hw⟩)
    · exact Or.inr (Or.inr ⟨h, hw⟩)
  · exact Or.inl (Or.inl h)

instance : IsTrans Ann sortByBenefit := by
  constructor
  intro a b c hab hbc
  rcases hab with h | ⟨h1, h2⟩ <;> rcases hbc with h' | ⟨h1', h2'⟩
  · exact Or.inl (h'.trans h)
  · exact Or.inl (lt_of_eq_of_lt h1' h)
  · exact Or.inl (lt_of_lt_of_eq h' h1)
  · exact Or.inr ⟨h1'.trans h1, h2'.trans h2⟩

instance : IsRefl Scored sortByTotalBenefit :=
  ⟨fun a => le_refl a.1⟩

instance : IsTotal Scored sortByTotalBenefit :=
  ⟨fun a b => le_total b.1 a.1⟩

instance : IsTrans Scored sortByTotalBenefit :=
  ⟨fun _ _ _ hab hbc => hbc.trans hab⟩

/-! ### The head of a stable insertion sort -/

theorem find?_congr_on {p q : α → Bool} {l : List α} (h : ∀ a ∈ l, p a = q a) :
    l.find? p = l.find? q := by
  induction l with
  | nil => rfl
  | cons x t ih =>
    have hx := h x (mem_cons_self x t)
    cases hq : q x with
    | true => rw [find?_cons_of_pos _ (hx.trans hq), find?_cons_of_pos _ hq]
    | false =>
      rw [find?_cons_of_neg _ (by simp [hx, hq]), find?_cons_of_neg _ (by simp [hq])]
      exact ih fun a ha => h a (mem_cons_of_mem _ ha)

theorem head?_insertionSort_rel {r : α → α → Prop} [DecidableRel r] [IsTotal α r]
    [IsTrans α r] [IsRefl α r] {l : List α} {w : α}
    (hw : (List.insertionSort r l).head? = some w) : ∀ y ∈ l, r w y := by
  intro y hy
  obtain ⟨t, ht⟩ : ∃ t, List.insertionSort r l = w :: t := by
    cases hs : List.insertionSort r l with
    | nil => rw [hs] at hw; cases hw
    | cons a t => rw [hs] at hw; exact ⟨t, by rw [Option.some_inj.1 hw.symm]⟩
  have hmem : y ∈ w :: t := ht ▸ (mem_insertionSort r).2 hy
  have hsorted : List.Sorted r (w :: t) := ht ▸ sorted_insertionSort r l
  rcases mem_cons.1 hmem with rfl | hmem
  · exact refl_of r y
  · exact rel_of_sorted_cons hsorted y hmem

theorem orderedInsert_head?_of_rel {r : α → α → Prop} [DecidableRel r] {x : α}
    {s : List α} (h : ∀ b ∈ s, r x b) : (s.orderedInsert r x).head? = some x := by
  cases s with
  | nil => rfl
  | cons b s' =>
    rw [List.orderedInsert, if_pos (h b (mem_cons_self b s'))]
    rfl

theorem head?_insertionSort_eq_find? {r : α → α → Prop} [DecidableRel r] [IsTotal α r]
    [IsTrans α r] [IsRefl α r] (l : List α) :
    (List.insertionSort r l).head? =
      l.find? (fun m => l.all (fun x => decide (r m x))) := by
  induction l with
  | nil => rfl
  | cons x t ih =>
    cases hx : t.all (fun y => decide (r x y)) with
    | true =>
      have hall : ∀ y ∈ t, r x y := by
        intro y hy
        simpa using (List.all_eq_true.1 hx) y hy
      have hhead : (List.insertionSort r (x :: t)).head? = some x := by
        rw [List.insertionSort]
        exact orderedInsert_head?_of_rel fun b hb =>
          hall b ((mem_insertionSort r).1 hb)
      rw [hhead, find?_cons_of_pos]
      simp only [List.all_cons, hx, Bool.and_true, decide_eq_true_eq]
      exact refl_of r x
    | false =>
      obtain ⟨y₀, hy₀, hxy₀⟩ : ∃ y ∈ t, ¬ r x y := by
        have := List.all_eq_false.1 hx
        simpa using this
      obtain ⟨h, s2, hs⟩ : ∃ h s2, List.insertionSort r t = h :: s2 := by
        cases hs : List.insertionSort r t with
        | nil =>
          exfalso
          have : t.length = 0 := by
            simpa [hs] using (length_insertionSort r t).symm
          rw [List.length_eq_zero.1 this] at hy₀
          cases hy₀
        | cons a s => exact ⟨a, s, rfl⟩
      have hmax : ∀ z ∈ t, r h z := head?_insertionSort_rel (by rw [hs]; rfl)
      have hmem_h : h ∈ t := (mem_insertionSort r).1 (hs ▸ mem_cons_self h s2)
      have hxh : ¬ r x h := fun hrxh =>
        hxy₀ (trans_of r hrxh (hmax y₀ hy₀))
      have hhx : r h x := (total_of r x h).resolve_left hxh
      have hhead : (List.insertionSort r (x :: t)).head? = some h := by
        rw [List.insertionSort, hs, List.orderedInsert, if_neg hxh]
        rfl
      have hPx : ((x :: t).all (fun y => decide (r x y))) = false := by
        simp only [List.all_cons, hx, Bool.and_false]
      rw [hhead, find?_cons_of_neg _ (by simp only [hPx]; exact Bool.false_ne_true)]
      have hcongr : ∀ z ∈ t,
          ((x :: t).all (fun y => decide (r z y))) =
            (t.all (fun y => decide (r z y))) := by
        intro z _
        cases hz : t.all (fun y => decide (r z y)) with
        | true =>
          have hzall : ∀ w ∈ t, r z w := by
            intro w hw
            simpa using (List.all_eq_true.1 hz) w hw
          have hzx : r z x := trans_of r (hzall h hmem_h) hhx
          simp only [List.all_cons, hz, Bool.and_true, decide_eq_true_eq]
          exact hzx
        | false => simp only [List.all_cons, hz, Bool.and_false]
      rw [find?_congr_on hcongr, ← ih, hs]
      rfl

/-! ### The aggregate scorer is a pair of sums -/

theorem foldl_add_map {β : Type*} (f : β → ℚ) (l : List β) (init : ℚ) :
    l.foldl (fun total current => total + f current) init = init + (l.map f).sum := by
  induction l generalizing init with
  | nil => simp
  | cons x t ih => simp [ih, add_assoc]

theorem calculateTotalBenefit_ratio (s : List Ann) :
    (calculateTotalBenefit s).1 = (s.map (fun a => a.1)).sum := by
  simpa using foldl_add_map (fun a => a.1) s 0

theorem calculateTotalBenefit_weight (s : List Ann) :
    (calculateTotalBenefit s).2.1 = (s.map (fun a => a.2.1)).sum := by
  simpa using foldl_add_map (fun a => a.2.1) s 0

theorem calculateTotalBenefit_members (s : List Ann) :
    (calculateTotalBenefit s).2.2 = s := rfl

/-! ### The annotation step and the ranked sequence -/

theorem rankedItems_perm (items : List Item) :
    rankedItems items ~ items.map calculateBenefit :=
  perm_insertionSort _ _

theorem mem_rankedItems {items : List Item} {a : Ann} (h : a ∈ rankedItems items) :
    ∃ it ∈ items, a = calculateBenefit it := by
  have h' : a ∈ items.map calculateBenefit := (rankedItems_perm items).mem_iff.1 h
  obtain ⟨it, hit, rfl⟩ := List.mem_map.1 h'
  exact ⟨it, hit, rfl⟩

theorem ratio_eq_of_mem_rankedItems {items : List Item} {a : Ann}
    (h : a ∈ rankedItems items) : a.1 = a.2.2 / a.2.1 := by
  obtain ⟨it, _, rfl⟩ := mem_rankedItems h
  rfl

theorem pair_mem_of_mem_rankedItems {items : List Item} {a : Ann}
    (h : a ∈ rankedItems items) : (a.2.1, a.2.2) ∈ items := by
  obtain ⟨it, hit, rfl⟩ := mem_rankedItems h
  exact hit

/-! ### The filtered, scored stream of combinations -/

theorem mem_feasibleResults {items : List Item} {cap : Option ℚ} {v : Scored} :
    v ∈ feasibleResults items cap ↔
      (∃ t, t <+ rankedItems items ∧ v = calculateTotalBenefit t) ∧
        filterByWeight cap v = true := by
  unfold feasibleResults
  rw [List.mem_filter]
  constructor
  · rintro ⟨hmem, hfilt⟩
    obtain ⟨t, ht, rfl⟩ := List.mem_map.1 hmem
    exact ⟨⟨t, mem_sortedCombinations.1 ht, rfl⟩, hfilt⟩
  · rintro ⟨⟨t, ht, rfl⟩, hfilt⟩
    exact ⟨List.mem_map.2 ⟨t, mem_sortedCombinations.2 ht, rfl⟩, hfilt⟩

theorem feasibleResults_ne_nil {items : List Item} {cap : Option ℚ}
    (hcap : ∀ c, cap = some c → 0 ≤ c) : feasibleResults items cap ≠ [] := by
  have hmem : calculateTotalBenefit [] ∈ feasibleResults items cap :=
    mem_feasibleResults.2 ⟨⟨[], nil_sublist _, rfl⟩, by
      cases cap with
      | none => rfl
      | some c =>
        simp only [filterByWeight, calculateTotalBenefit, List.foldl_nil,
          decide_eq_true_eq]
        exact hcap c rfl⟩
  exact List.ne_nil_of_mem hmem

/-! ### The selected winner -/

theorem knapsack_winner_spec {items : List Item} {cap : Option ℚ}
    (hne : feasibleResults items cap ≠ []) :
    ∃ w, knapsack items cap = some (unwrapWinner w) ∧
      w ∈ feasibleResults items cap ∧
      (∀ v ∈ feasibleResults items cap, v.1 ≤ w.1) ∧
      (feasibleResults items cap).find?
          (fun m => (feasibleResults items cap).all
            (fun x => decide (sortByTotalBenefit m x))) = some w := by
  cases hs : List.insertionSort sortByTotalBenefit (feasibleResults items cap) with
  | nil =>
    exfalso
    apply hne
    have : (feasibleResults items cap).length = 0 := by
      simpa [hs] using (length_insertionSort sortByTotalBenefit
        (feasibleResults items cap)).symm
    exact List.length_eq_zero.1 this
  | cons w rest =>
    refine ⟨w, ?_, ?_, ?_, ?_⟩
    · unfold knapsack knapsackResults
      rw [hs]
    · exact (mem_insertionSort sortByTotalBenefit).1 (hs ▸ mem_cons_self w rest)
    · intro v hv
      exact head?_insertionSort_rel (by rw [hs]; rfl) v hv
    · have hfind := @head?_insertionSort_eq_find? Scored sortByTotalBenefit _ _ _ _
        (feasibleResults items cap)
      rw [hs] at hfind
      exact hfind.symm

theorem exists_ranked_sublist {items s : List Item} (hs : s <+ items) :
    ∃ t, t <+ rankedItems items ∧ t ~ s.map calculateBenefit := by
  have h2 : s.map calculateBenefit <+~ rankedItems items :=
    ((hs.map calculateBenefit).subperm).trans (rankedItems_perm items).symm.subperm
  obtain ⟨t, hperm, hsub⟩ := h2
  exact ⟨t, hsub, hperm⟩

theorem totalWeightOf_unwrap (t : List Ann) :
    totalWeightOf (unwrapWinner (calculateTotalBenefit t)) =
      (calculateTotalBenefit t).2.1 := by
  rw [calculateTotalBenefit_weight]
  simp [totalWeightOf, unwrapWinner, calculateTotalBenefit, List.map_map,
    Function.comp_def]

theorem totalRatioOf_unwrap {items : List Item} {t : List Ann}
    (ht : t <+ rankedItems items) :
    totalRatioOf (unwrapWinner (calculateTotalBenefit t)) =
      (calculateTotalBenefit t).1 := by
  rw [calculateTotalBenefit_ratio]
  simp only [totalRatioOf, unwrapWinner, calculateTotalBenefit, List.map_map,
    Function.comp_def]
  refine congrArg List.sum (List.map_congr_left fun a ha => ?_)
  exact (ratio_eq_of_mem_rankedItems (ht.subset ha)).symm

theorem ratio_sum_of_perm {s : List Item} {t : List Ann}
    (hperm : t ~ s.map calculateBenefit) :
    (calculateTotalBenefit t).1 = totalRatioOf s := by
  rw [calculateTotalBenefit_ratio]
  have := (hperm.map (fun a : Ann => a.1)).sum_eq
  rw [this]
  simp [totalRatioOf, List.map_map, Function.comp_def, calculateBenefit]

theorem weight_sum_of_perm {s : List Item} {t : List Ann}
    (hperm : t ~ s.map calculateBenefit) :
    (calculateTotalBenefit t).2.1 = totalWeightOf s := by
  rw [calculateTotalBenefit_weight]
  have := (hperm.map (fun a : Ann => a.2.1)).sum_eq
  rw [this]
  simp [totalWeightOf, List.map_map, Function.comp_def, calculateBenefit]

/-! ### Claim C2 -/

/-- C2: for every input sequence of length `N`, `sortedCombinations` produces
exactly `2^N` subsets; the produced subsets are exactly the order-preserving
subsequences of the input; the enumeration is the image of the list
`enumMasks N` of bitmasks (bit `i` of a mask selecting element `i`), and that
mask list hits every `m < 2^N` exactly once — the bitmask bijection, so no
subset is duplicated or omitted. -/
theorem sortedCombinations_enumeration {β : Type*} (l : List β) :
    (sortedCombinations l).length = 2 ^ l.length ∧
      (∀ t, t ∈ sortedCombinations l ↔ t <+ l) ∧
      sortedCombinations l = (enumMasks l.length).map (specMaskSubset l) ∧
      (enumMasks l.length).Nodup ∧
      (∀ m, m ∈ enumMasks l.length ↔ m < 2 ^ l.length) :=
  ⟨length_sortedCombinations l, fun _ => mem_sortedCombinations,
    sortedCombinations_eq_enumMasks l, enumMasks_nodup _, fun _ => mem_enumMasks⟩

/-! ### Claim C3 -/

/-- C3: `calculateTotalBenefit` produces, for every subset of annotated
items, a `totalWeight` (second slot) equal to the sum of the members'
weights and a `totalRatio` (first slot) equal to the sum of the members'
ratios; it is not the sum of the benefits (third components), as a concrete
subset shows; and the empty subset is scored `(0, 0)`. -/
theorem calculateTotalBenefit_spec :
    (∀ s : List Ann,
        (calculateTotalBenefit s).2.1 = (s.map (fun a => a.2.1)).sum ∧
          (calculateTotalBenefit s).1 = (s.map (fun a => a.1)).sum) ∧
      calculateTotalBenefit [] = (0, 0, []) ∧
      (∃ s : List Ann, (calculateTotalBenefit s).1 ≠ (s.map (fun a => a.2.2)).sum) :=
  ⟨fun s => ⟨calculateTotalBenefit_weight s, calculateTotalBenefit_ratio s⟩,
    rfl,
    ⟨[((1 : ℚ)/2, 2, 1)], by decide⟩⟩

/-! ### Claim C4 -/

/-- C4, counterexample: on the literal collection with unconstrained
capacity, `knapsack` does not return the items in the caller's input order
`[[1,1],[2,1],[3,2],[3,5],[4,2],[4,5]]` claimed by the spec. -/
theorem knapsack_literal_unconstrained_counterexample :
    knapsack [((1:ℚ),1),(2,1),(3,2),(3,5),(4,2),(4,5)] none ≠
      some [((1:ℚ),1),(2,1),(3,2),(3,5),(4,2),(4,5)] := by decide

/-- C4, amended: the four finite-capacity scenarios are as claimed, and the
unconstrained run returns all six items, but in the ranked order
`[[3,5],[4,5],[1,1],[3,2],[4,2],[2,1]]` rather than in input order. -/
theorem knapsack_literal_scenarios :
    knapsack [((1:ℚ),1),(2,1),(3,2),(3,5),(4,2),(4,5)] (some 12) =
        some [((3:ℚ),5),(4,5),(1,1),(3,2)] ∧
      knapsack [((1:ℚ),1),(2,1),(3,2),(3,5),(4,2),(4,5)] (some 1) =
        some [((1:ℚ),1)] ∧
      knapsack [((1:ℚ),1),(2,1),(3,2),(3,5),(4,2),(4,5)] (some 2) =
        some [((1:ℚ),1)] ∧
      knapsack [((1:ℚ),1),(2,1),(3,2),(3,5),(4,2),(4,5)] (some 3) =
        some [((3:ℚ),5)] ∧
      knapsack [((1:ℚ),1),(2,1),(3,2),(3,5),(4,2),(4,5)] none =
        some [((3:ℚ),5),(4,5),(1,1),(3,2),(4,2),(2,1)] :=
  ⟨by decide, by decide, by decide, by decide, by decide⟩

/-! ### Claim C5 -/

/-- C5, counterexample: on a collection whose only item has the invalid
weight `-1`, the pipeline does not fail before enumeration — it runs to
completion and returns a result (the empty selection). -/
theorem knapsack_invalid_item_counterexample :
    knapsack [((-1:ℚ),1)] (some 5) = some [] ∧
      knapsack [((-1:ℚ),1)] (some 5) ≠ none :=
  ⟨by decide, by decide⟩

/-- C5, amended: the annotation step performs no validation and no
`InvalidItem` failure exists: for every input collection — including
collections with zero or negative weights — and every capacity `≥ 0`,
`knapsack` returns a result. -/
theorem knapsack_no_validation (items : List Item) (c : ℚ) (hc : 0 ≤ c) :
    ∃ out, knapsack items (some c) = some out := by
  obtain ⟨w, hk, -, -, -⟩ := knapsack_winner_spec
    (@feasibleResults_ne_nil items (some c)
      (fun c' hc' => (Option.some_inj.1 hc') ▸ hc))
  exact ⟨unwrapWinner w, hk⟩

theorem knapsack_no_validation_witness :
    ∃ out, knapsack [((-1:ℚ),1)] (some 5) = some out :=
  knapsack_no_validation [((-1:ℚ),1)] 5 (by norm_num)

/-! ### Claim C6 -/

/-- C6: for a collection of positively weighted items and a negative
capacity, no scored combination (the empty one included) passes the
capacity filter, and `knapsack` produces no value: the source reads
`results[0]` of the empty `results` and throws a `TypeError` (modelled by
`none`) instead of signalling a dedicated `NoFeasibleSolution` error. -/
theorem knapsack_negative_capacity (items : List Item) (c : ℚ)
    (hw : ∀ it ∈ items, 0 < it.1) (hc : c < 0) :
    feasibleResults items (some c) = [] ∧ knapsack items (some c) = none := by
  have hfe : feasibleResults items (some c) = [] := by
    unfold feasibleResults
    refine List.filter_eq_nil_iff.2 ?_
    intro v hv
    obtain ⟨t, ht, rfl⟩ := List.mem_map.1 hv
    have hsub := mem_sortedCombinations.1 ht
    have hnn : 0 ≤ (calculateTotalBenefit t).2.1 := by
      rw [calculateTotalBenefit_weight]
      refine List.sum_nonneg ?_
      intro x hx
      obtain ⟨a, ha, rfl⟩ := List.mem_map.1 hx
      obtain ⟨it, hit, rfl⟩ := mem_rankedItems (hsub.subset ha)
      exact le_of_lt (hw it hit)
    simp only [filterByWeight, decide_eq_true_eq]
    intro hle
    exact absurd (lt_of_le_of_lt (hnn.trans hle) hc) (lt_irrefl 0)
  refine ⟨hfe, ?_⟩
  unfold knapsack knapsackResults
  rw [hfe]
  rfl

theorem knapsack_negative_capacity_witness :
    feasibleResults [((1:ℚ),1)] (some (-1)) = [] ∧
      knapsack [((1:ℚ),1)] (some (-1)) = none :=
  knapsack_negative_capacity [((1:ℚ),1)] (-1) (by decide) (by norm_num)

/-! ### Claim C1 -/

/-- C1: for a collection of positively weighted items and any capacity
`≥ 0` (so that at least the empty subset is feasible), `knapsack` returns a
selection whose total weight is within the capacity and whose total ratio is
maximal among all order-preserving subsets of the input that fit the
capacity. -/
theorem knapsack_feasible_optimal (items : List Item) (c : ℚ)
    (_hw : ∀ it ∈ items, 0 < it.1) (hc : 0 ≤ c) :
    ∃ out, knapsack items (some c) = some out ∧ totalWeightOf out ≤ c ∧
      ∀ s, s <+ items → totalWeightOf s ≤ c → totalRatioOf s ≤ totalRatioOf out := by
  obtain ⟨w, hk, hwmem, hmax, -⟩ := knapsack_winner_spec
    (@feasibleResults_ne_nil items (some c)
      (fun c' hc' => (Option.some_inj.1 hc') ▸ hc))
  obtain ⟨⟨t, htsub, rfl⟩, hfilt⟩ := mem_feasibleResults.1 hwmem
  simp only [filterByWeight, decide_eq_true_eq] at hfilt
  refine ⟨unwrapWinner (calculateTotalBenefit t), hk, ?_, ?_⟩
  · rw [totalWeightOf_unwrap]
    exact hfilt
  · intro s hs hsw
    obtain ⟨u, husub, huperm⟩ := exists_ranked_sublist hs
    have humem : calculateTotalBenefit u ∈ feasibleResults items (some c) := by
      refine mem_feasibleResults.2 ⟨⟨u, husub, rfl⟩, ?_⟩
      simp only [filterByWeight, decide_eq_true_eq]
      rw [weight_sum_of_perm huperm]
      exact hsw
    have hle := hmax (calculateTotalBenefit u) humem
    rw [ratio_sum_of_perm huperm] at hle
    rw [totalRatioOf_unwrap htsub]
    exact hle

theorem knapsack_feasible_optimal_witness :
    ∃ out, knapsack [((1:ℚ),1),((2:ℚ),1)] (some 2) = some out ∧
      totalWeightOf out ≤ 2 ∧
      ∀ s, s <+ [((1:ℚ),1),((2:ℚ),1)] → totalWeightOf s ≤ 2 →
        totalRatioOf s ≤ totalRatioOf out :=
  knapsack_feasible_optimal [((1:ℚ),1),((2:ℚ),1)] 2 (by decide) (by norm_num)

/-! ### Claim C7 -/

/-- C7: whenever `knapsack` returns, the returned pairs are the unwrapping
of an order-preserving subsequence of the ranked sequence (the annotated
items sorted by `sortByBenefit`: descending ratio, ties by descending
weight), and that subsequence is itself ordered by `sortByBenefit`; the
output order is therefore the Ranker's, not the caller's. -/
theorem knapsack_output_ranked_order (items : List Item) (cap : Option ℚ)
    (out : List Item) (h : knapsack items cap = some out) :
    ∃ t, t <+ rankedItems items ∧ List.Sorted sortByBenefit t ∧
      out = t.map (fun a => (a.2.1, a.2.2)) := by
  unfold knapsack at h
  cases hres : knapsackResults items cap with
  | nil => rw [hres] at h; cases h
  | cons w rest =>
    rw [hres] at h
    have hout : out = unwrapWinner w := (Option.some_inj.1 h).symm
    have hwmem : w ∈ feasibleResults items cap := by
      have hmem : w ∈ knapsackResults items cap := by
        rw [hres]
        exact mem_cons_self w rest
      unfold knapsackResults at hmem
      exact (mem_insertionSort sortByTotalBenefit).1 hmem
    obtain ⟨⟨t, htsub, rfl⟩, -⟩ := mem_feasibleResults.1 hwmem
    exact ⟨t, htsub,
      (sorted_insertionSort sortByBenefit (items.map calculateBenefit)).sublist htsub,
      hout⟩

theorem knapsack_output_ranked_order_witness :
    ∃ t, t <+ rankedItems [((1:ℚ),1),((2:ℚ),1)] ∧
      List.Sorted sortByBenefit t ∧
      [((1:ℚ),1),((2:ℚ),1)] = t.map (fun a => (a.2.1, a.2.2)) :=
  knapsack_output_ranked_order [((1:ℚ),1),((2:ℚ),1)] none
    [((1:ℚ),1),((2:ℚ),1)] (by decide)

/-! ### Claim C8 -/

/-- C8, counterexample: on `[[1,0],[1,1]]` with capacity `2` the subsets
`{[1,1]}` and `{[1,1],[1,0]}` tie at the maximal total ratio `1`; the spec's
tie-break (smallest bitmask, bit `i` of `m` selecting ranked element `i`)
picks the singleton `[[1,1]]`, but the code returns the pair — the code's
enumeration pushes include-branches first, so among ties the larger mask
wins here. -/
theorem knapsack_tie_break_counterexample :
    knapsack [((1:ℚ),0),((1:ℚ),1)] (some 2) = some [((1:ℚ),1),((1:ℚ),0)] ∧
      specSmallestMaskWinner [((1:ℚ),0),((1:ℚ),1)] (some 2) = some [((1:ℚ),1)] ∧
      knapsack [((1:ℚ),0),((1:ℚ),1)] (some 2) ≠
        specSmallestMaskWinner [((1:ℚ),0),((1:ℚ),1)] (some 2) :=
  ⟨by decide, by decide, by decide⟩

/-- C8, amended: whenever `knapsack` returns, its winner is the first
element of the filtered stream — in the code's enumeration order, which
pushes the include branch first (equivalently, descending bitmask under the
convention that ranked element `i` corresponds to bit `N - 1 - i`) — whose
total ratio is maximal; among ties the subset enumerated earliest wins, and
the enumeration order is `enumMasks`, not ascending bitmask. -/
theorem knapsack_tie_break_enumeration_order (items : List Item)
    (cap : Option ℚ) (out : List Item) (h : knapsack items cap = some out) :
    ∃ w, (feasibleResults items cap).find?
        (fun m => (feasibleResults items cap).all
          (fun x => decide (sortByTotalBenefit m x))) = some w ∧
      out = unwrapWinner w := by
  have hne : feasibleResults items cap ≠ [] := by
    intro hnil
    have : knapsackResults items cap = [] := by
      unfold knapsackResults
      rw [hnil]
      rfl
    unfold knapsack at h
    rw [this] at h
    cases h
  obtain ⟨w, hk, -, -, hfind⟩ := knapsack_winner_spec hne
  exact ⟨w, hfind, Option.some_inj.1 (h.symm.trans hk)⟩

theorem knapsack_tie_break_enumeration_order_witness :
    ∃ w, (feasibleResults [((1:ℚ),1)] none).find?
        (fun m => (feasibleResults [((1:ℚ),1)] none).all
          (fun x => decide (sortByTotalBenefit m x))) = some w ∧
      [((1:ℚ),1)] = unwrapWinner w :=
  knapsack_tie_break_enumeration_order [((1:ℚ),1)] none [((1:ℚ),1)] (by decide)

/-! ### Claim C9 -/

/-- C9: dropping the ratio field of an annotated item recovers the original
item exactly, and consequently every pair in a returned selection is a pair
of the caller's input collection. -/
theorem calculateBenefit_unwrap_identity :
    (∀ item : Item, (calculateBenefit item).2 = item) ∧
      ∀ (items : List Item) (cap : Option ℚ) (out : List Item),
        knapsack items cap = some out → ∀ p ∈ out, p ∈ items := by
  refine ⟨fun _ => rfl, ?_⟩
  intro items cap out h p hp
  obtain ⟨t, htsub, -, rfl⟩ := knapsack_output_ranked_order items cap out h
  obtain ⟨a, ha, rfl⟩ := List.mem_map.1 hp
  exact pair_mem_of_mem_rankedItems (htsub.subset ha)

theorem calculateBenefit_unwrap_identity_witness :
    (((1:ℚ),(1:ℚ)) : Item) ∈ ([((1:ℚ),1)] : List Item) :=
  calculateBenefit_unwrap_identity.2 [((1:ℚ),1)] none [((1:ℚ),1)]
    (by decide) ((1:ℚ),1) (by decide)

end KnapsackJS
